import Mathlib

/-!
Verification of the PyNBT codec (src/opennbt/nbt.py), a reader/writer for
the Named Binary Tag format.  The Python source is shallowly embedded:

* a byte stream is a `List Nat` (each element a byte value 0..255);
* the reader `rd` built in `NBTFile.__init__` is modelled by `ReadM`,
  a state-passing parser over the remaining stream that fails with a
  `PyErr` naming the Python exception the source would raise;
* `struct` packing/unpacking of fixed-width integers is modelled by
  `packU` / `valU` (unsigned bytes) and `toSigned` / `packSigned`
  (two's-complement), parameterised by the byte order `<` / `>`;
* Python floats stored in `TAG_Float` / `TAG_Double` are modelled by their
  4- / 8-byte IEEE-754 bit patterns (a `Nat` below `2^32` / `2^64`), since
  `struct.pack` simply lays those bits on the wire;
* the class hierarchy `TAG_Byte` .. `TAG_Int_Array` becomes the inductive
  `Tag`; the `_tags` tuple becomes `tagsGet` (with Python's negative-index
  wrap-around); the recursive `BaseTag.read` becomes the fuel-indexed
  `Tag.read`, and the `write` methods become `Tag.write`.
-/

/-- Python exceptions the source can raise while reading or writing. -/
inductive PyErr where
  /-- struct.error: the stream returned fewer bytes than the format needs. -/
  | truncated
  /-- struct.error: a malformed format string, e.g. a negative repeat count. -/
  | structFmt
  /-- struct.error: a value out of range for its pack format (or wrong type). -/
  | packRange
  /-- IndexError: a `_tags` subscript outside the 12-entry tuple. -/
  | indexErr
  /-- AttributeError: calling `.read` on the `None` entry of `_tags`. -/
  | attrErr
  /-- IOError in NBTFile.init: the leading byte is not 0x0A. -/
  | notValidFile
  /-- Artificial: the fuel of the embedded recursion ran out. -/
  | outOfFuel
deriving DecidableEq, Repr

/-- The byte order chosen in NBTFile: `>` (big-endian) or `<` (little-endian). -/
inductive ByteOrder where
  | be
  | le
deriving DecidableEq, Repr

/-- Little-endian value of a byte list. -/
def bytesLE : List Nat → Nat
  | [] => 0
  | b :: t => b + 256 * bytesLE t

/-- Unsigned value of a byte list in the given byte order. -/
def valU (o : ByteOrder) (bs : List Nat) : Nat :=
  match o with
  | .be => bytesLE bs.reverse
  | .le => bytesLE bs

/-- The `w` little-endian bytes of `n`. -/
def natBytesLE : Nat → Nat → List Nat
  | 0, _ => []
  | w + 1, n => n % 256 :: natBytesLE w (n / 256)

/-- struct.pack of an unsigned `w`-byte integer in byte order `o`. -/
def packU (o : ByteOrder) (w n : Nat) : List Nat :=
  match o with
  | .be => (natBytesLE w n).reverse
  | .le => natBytesLE w n

/-- Two's-complement reading of a `w`-byte unsigned value. -/
def toSigned (w : Nat) (n : Nat) : Int :=
  if n < 2 ^ (8 * w - 1) then (n : Int) else (n : Int) - 2 ^ (8 * w)

/-- struct.pack of a signed `w`-byte integer: struct.error when out of range. -/
def packSigned (o : ByteOrder) (w : Nat) (v : Int) : Except PyErr (List Nat) :=
  if -(2 ^ (8 * w - 1)) ≤ v ∧ v < 2 ^ (8 * w - 1) then
    .ok (packU o w (v % (2 ^ (8 * w))).toNat)
  else
    .error .packRange

/-- The reader monad: the `rd` closure of NBTFile.init, consuming a stream. -/
def ReadM (α : Type) : Type := List Nat → Except PyErr (α × List Nat)

instance : Monad ReadM where
  pure a := fun s => .ok (a, s)
  bind p f := fun s =>
    match p s with
    | .ok (a, s1) => f a s1
    | .error e => .error e

/-- Raise a Python exception inside the reader. -/
def rThrow (e : PyErr) : ReadM α := fun _ => .error e

/-- Lift an `Except` computation (no stream access) into the reader. -/
def rLift (x : Except PyErr α) : ReadM α := fun s =>
  match x with
  | .ok a => .ok (a, s)
  | .error e => .error e

/-- Read `n` raw bytes; struct.error (truncated) when the stream is shorter. -/
def readBytes (n : Nat) : ReadM (List Nat) := fun s =>
  if n ≤ s.length then .ok (s.take n, s.drop n) else .error .truncated

/-- Read a `w`-byte unsigned integer in byte order `o`. -/
def readU (o : ByteOrder) (w : Nat) : ReadM Nat := do
  let bs ← readBytes w
  pure (valU o bs)

/-- Read a `w`-byte signed integer (struct codes b/h/i/q). -/
def readSigned (o : ByteOrder) (w : Nat) : ReadM Int := do
  let n ← readU o w
  pure (toSigned w n)

/-- Reads in a length-prefixed UTF8 string (def _read_utf8):
`length, = rd('h')` (a signed 2-byte integer) then `rd('%ds' % length)`.
A negative length yields a malformed format string, hence struct.error. -/
def read_utf8 (o : ByteOrder) : ReadM (List Nat) := do
  let length ← readSigned o 2
  if length < 0 then rThrow .structFmt
  else readBytes length.toNat

/-- Writes a length-prefixed UTF8 string (def _write_utf8):
`wt('h%ss' % len(value), len(value), value)`; struct.error when the
length does not fit the signed 2-byte code h. -/
def write_utf8 (o : ByteOrder) (value : List Nat) : Except PyErr (List Nat) := do
  let lenBytes ← packSigned o 2 (value.length : Int)
  pure (lenBytes ++ value)

/-- The value held by a TAG_Int_Array.  The class is dynamically typed:
callers construct it with a list of integers, but `TAG_Int_Array.read`
stores only `rd('%si' % length)[0]`, the first integer of the tuple. -/
inductive IntArrayValue where
  | ofList (v : List Int)
  | first (v : Int)
deriving DecidableEq, Repr

/-- The tag classes TAG_Byte .. TAG_Int_Array of the source.  Each carries
its `name` (`none` models Python `None`) and its `value`.  A TAG_Compound
is a dict; it is modelled as an insertion-ordered association list from
key to child tag.  Float/Double values are their IEEE-754 bit patterns. -/
inductive Tag where
  | byte (name : Option (List Nat)) (value : Int)
  | short (name : Option (List Nat)) (value : Int)
  | int (name : Option (List Nat)) (value : Int)
  | long (name : Option (List Nat)) (value : Int)
  | float (name : Option (List Nat)) (bits : Nat)
  | double (name : Option (List Nat)) (bits : Nat)
  | byteArray (name : Option (List Nat)) (value : List Nat)
  | string (name : Option (List Nat)) (value : List Nat)
  | list (name : Option (List Nat)) (elemType : Int) (items : List Tag)
  | compound (name : Option (List Nat)) (items : List (List Nat × Tag))
  | intArray (name : Option (List Nat)) (value : IntArrayValue)

/-- The `name` attribute of a tag. -/
def Tag.name : Tag → Option (List Nat)
  | .byte n _ | .short n _ | .int n _ | .long n _ | .float n _ | .double n _
  | .byteArray n _ | .string n _ | .list n _ _ | .compound n _ | .intArray n _ => n

/-- Assignment `tag.name = n`. -/
def Tag.setName (n : Option (List Nat)) : Tag → Tag
  | .byte _ v => .byte n v
  | .short _ v => .short n v
  | .int _ v => .int n v
  | .long _ v => .long n v
  | .float _ v => .float n v
  | .double _ v => .double n v
  | .byteArray _ v => .byteArray n v
  | .string _ v => .string n v
  | .list _ t v => .list n t v
  | .compound _ v => .compound n v
  | .intArray _ v => .intArray n v

/-- `_tags.index(self.__class__)`: the 1-byte discriminant of each class. -/
def Tag.disc : Tag → Nat
  | .byte .. => 1
  | .short .. => 2
  | .int .. => 3
  | .long .. => 4
  | .float .. => 5
  | .double .. => 6
  | .byteArray .. => 7
  | .string .. => 8
  | .list .. => 9
  | .compound .. => 10
  | .intArray .. => 11

/-- Python subscript `_tags[t]` on the 12-entry tuple: `ok none` is the
`None` entry (index 0), `ok (some i)` the class with discriminant `i`;
negative subscripts wrap around as in Python; anything outside
`-12 ≤ t < 12` raises IndexError. -/
def tagsGet (t : Int) : Except PyErr (Option Nat) :=
  if 0 ≤ t ∧ t < 12 then
    .ok (if t = 0 then none else some t.toNat)
  else if -12 ≤ t ∧ t < 0 then
    .ok (if t = -12 then none else some (12 + t).toNat)
  else
    .error .indexErr

/-- `d[k] = v` on a Python dict modelled as an insertion-ordered
association list: an existing binding is updated in place, a new key is
appended at the end. -/
def dictInsert (l : List (List Nat × Tag)) (k : List Nat) (v : Tag) :
    List (List Nat × Tag) :=
  match l with
  | [] => [(k, v)]
  | (k1, v1) :: t =>
      if k1 = k then (k, v) :: t else (k1, v1) :: dictInsert t k v

/-- Python dict lookup `d.get(k)`. -/
def dictGet (l : List (List Nat × Tag)) (k : List Nat) : Option Tag :=
  match l with
  | [] => none
  | (k1, v1) :: t => if k1 = k then some v1 else dictGet t k

/-- `rd('%si' % length)` of TAG_Int_Array.read: `n` signed 4-byte ints. -/
def readInts (o : ByteOrder) : Nat → ReadM (List Int)
  | 0 => pure []
  | n + 1 => do
    let i ← readSigned o 4
    let is ← readInts o n
    pure (i :: is)

mutual

/-- classmethod BaseTag.read(cls, rd, has_name=True), with `cls` given by
its discriminant `idx` (1..11).  `fuel` bounds the recursion depth of the
embedding; every recursive call decreases it, and a tag tree of size `s`
needs no more than `s` fuel (see `Tag.size`). -/
def Tag.read (o : ByteOrder) : Nat → Nat → Bool → ReadM Tag
  | 0, _, _ => rThrow .outOfFuel
  | f + 1, idx, has_name =>
    (if has_name then do pure (some (← read_utf8 o)) else pure none) >>=
    fun name =>
    (if idx = 10 then do
      -- TAG_Compound: loop reading 1-byte discriminants until the End tag.
      let items ← readCompoundLoop o f []
      pure (Tag.compound none items)
    else if idx = 9 then do
      -- TAG_List: tag_type, length = rd('bi'); real_type = _tags[tag_type];
      -- then length reads with has_name=False (range(0, length) is empty
      -- when length <= 0, so a negative length reads no elements).
      let tag_type ← readSigned o 1
      let length ← readSigned o 4
      let real_type ← rLift (tagsGet tag_type)
      match real_type with
      | some i => do
          let elems ← readListElems o f i length.toNat
          pure (Tag.list none tag_type elems)
      | none =>
          if length ≤ 0 then pure (Tag.list none tag_type [])
          else rThrow .attrErr
    else if idx = 8 then do
      -- TAG_String
      let value ← read_utf8 o
      pure (Tag.string none value)
    else if idx = 7 then do
      -- TAG_Byte_Array: length, = rd('i'); rd('%ss' % length)[0]
      let length ← readSigned o 4
      if length < 0 then rThrow .structFmt
      else do
        let value ← readBytes length.toNat
        pure (Tag.byteArray none value)
    else if idx = 11 then do
      -- TAG_Int_Array: length, = rd('i'); cls(rd('%si' % length)[0], name):
      -- the whole tuple of `length` integers is read but only its first
      -- element is kept; an empty tuple raises IndexError.
      let length ← readSigned o 4
      if length < 0 then rThrow .structFmt
      else do
        let ints ← readInts o length.toNat
        match ints with
        | [] => rThrow .indexErr
        | i :: _ => pure (.intArray none (.first i))
    else if idx = 1 then do pure (.byte none (← readSigned o 1))
    else if idx = 2 then do pure (.short none (← readSigned o 2))
    else if idx = 3 then do pure (.int none (← readSigned o 4))
    else if idx = 4 then do pure (.long none (← readSigned o 8))
    else if idx = 5 then do pure (.float none (← readU o 4))
    else if idx = 6 then do pure (.double none (← readU o 8))
    else rThrow .attrErr) >>=
    fun t => pure (t.setName name)

/-- The `while True` loop of the TAG_Compound branch of BaseTag.read:
read a signed byte; 0 is the End tag and stops the loop; otherwise look
the class up in `_tags`, read the child and store it under its name. -/
def readCompoundLoop (o : ByteOrder) : Nat → List (List Nat × Tag) →
    ReadM (List (List Nat × Tag))
  | 0, _ => rThrow .outOfFuel
  | f + 1, final => do
    let tag ← readSigned o 1
    if tag = 0 then pure final
    else do
      let cls ← rLift (tagsGet tag)
      match cls with
      | none => rThrow .attrErr
      | some i => do
          let tmp ← Tag.read o f i true
          readCompoundLoop o f (dictInsert final (tmp.name.getD []) tmp)

/-- The list comprehension of the TAG_List branch:
`[real_type.read(rd, has_name=False) for x in range(0, length)]`. -/
def readListElems (o : ByteOrder) : Nat → Nat → Nat → ReadM (List Tag)
  | _, _, 0 => pure []
  | 0, _, _ + 1 => rThrow .outOfFuel
  | f + 1, idx, n + 1 => do
    let e ← Tag.read o f idx false
    let es ← readListElems o f idx n
    pure (e :: es)

end


/-- The header every `write` method emits first: nothing when `self.name`
is None, otherwise `wt('b', discriminant)` followed by the name string. -/
def writeHead (o : ByteOrder) (disc : Nat) :
    Option (List Nat) → Except PyErr (List Nat)
  | none => pure []
  | some n => do
    let d ← packSigned o 1 (disc : Int)
    let nm ← write_utf8 o n
    pure (d ++ nm)

mutual

/-- The `write` methods of the tag classes.  Each writes its header (see
`writeHead`) followed by its payload.  `TAG_Int_Array.write` always raises
struct.error: `wt('i%si' % len(v), len(v), v)` passes the whole list where
the format demands individual integers. -/
def Tag.write (o : ByteOrder) : Tag → Except PyErr (List Nat)
  | .byte nm v => do
    let h ← writeHead o 1 nm
    let p ← packSigned o 1 v
    pure (h ++ p)
  | .short nm v => do
    let h ← writeHead o 2 nm
    let p ← packSigned o 2 v
    pure (h ++ p)
  | .int nm v => do
    let h ← writeHead o 3 nm
    let p ← packSigned o 4 v
    pure (h ++ p)
  | .long nm v => do
    let h ← writeHead o 4 nm
    let p ← packSigned o 8 v
    pure (h ++ p)
  | .float nm bits => do
    let h ← writeHead o 5 nm
    pure (h ++ packU o 4 bits)
  | .double nm bits => do
    let h ← writeHead o 6 nm
    pure (h ++ packU o 8 bits)
  | .byteArray nm v => do
    let h ← writeHead o 7 nm
    let lenB ← packSigned o 4 (v.length : Int)
    pure (h ++ lenB ++ v)
  | .string nm v => do
    let h ← writeHead o 8 nm
    let p ← write_utf8 o v
    pure (h ++ p)
  | .list nm ty elems => do
    let h ← writeHead o 9 nm
    let tyB ← packSigned o 1 ty
    let lenB ← packSigned o 4 (elems.length : Int)
    let body ← writeTags o elems
    pure (h ++ tyB ++ lenB ++ body)
  | .compound nm items => do
    let h ← writeHead o 10 nm
    let body ← writeItems o items
    pure (h ++ body ++ [0])
  | .intArray _ _ => .error .packRange

/-- `for item in self.value: item.write(wt)` of TAG_List.write. -/
def writeTags (o : ByteOrder) : List Tag → Except PyErr (List Nat)
  | [] => pure []
  | t :: ts => do
    let b ← Tag.write o t
    let bs ← writeTags o ts
    pure (b ++ bs)

/-- `for v in self.value.itervalues(): v.write(wt)` of TAG_Compound.write. -/
def writeItems (o : ByteOrder) : List (List Nat × Tag) → Except PyErr (List Nat)
  | [] => pure []
  | (_, t) :: ts => do
    let b ← Tag.write o t
    let bs ← writeItems o ts
    pure (b ++ bs)

end

/-- The payload a `write` method emits after its header. -/
def Tag.writeBody (o : ByteOrder) : Tag → Except PyErr (List Nat)
  | .byte _ v => packSigned o 1 v
  | .short _ v => packSigned o 2 v
  | .int _ v => packSigned o 4 v
  | .long _ v => packSigned o 8 v
  | .float _ bits => pure (packU o 4 bits)
  | .double _ bits => pure (packU o 8 bits)
  | .byteArray _ v => do
    let lenB ← packSigned o 4 (v.length : Int)
    pure (lenB ++ v)
  | .string _ v => write_utf8 o v
  | .list _ ty elems => do
    let tyB ← packSigned o 1 ty
    let lenB ← packSigned o 4 (elems.length : Int)
    let body ← writeTags o elems
    pure (tyB ++ lenB ++ body)
  | .compound _ items => do
    let body ← writeItems o items
    pure (body ++ [0])
  | .intArray _ _ => .error .packRange

/-- The `tag_type` argument of TAG_List.init: either a plain integer or a
tag class (given by its discriminant, what `_tags.index` returns for it). -/
inductive TagTypeArg where
  | int (i : Int)
  | cls (idx : Nat)

/-- The integer TAG_List.init stores into `self._type`. -/
def TagTypeArg.toInt : TagTypeArg → Int
  | .int i => i
  | .cls idx => (idx : Int)

/-- TAG_List.init: stores `tag_type` (via `_tags.index` when it is a
class) and the element list.  The source performs no validation of the
elements against the declared type. -/
def TAG_List_init (tag_type : TagTypeArg) (value : List Tag)
    (name : Option (List Nat)) : Except PyErr Tag :=
  .ok (.list name tag_type.toInt value)

/-- TAG_Compound.setitem: sets the tag's name to the key when the name
is None, then stores the tag under the key. -/
def TAG_Compound_setitem (items : List (List Nat × Tag)) (key : List Nat)
    (value : Tag) : List (List Nat × Tag) :=
  let value := if value.name = none then value.setName (some key) else value
  dictInsert items key value

/-- The top-level dispatch: read a 1-byte discriminant with `rd('b')`,
look the class up in `_tags`, and invoke its `read` with a name.  This is
the shape of one iteration of the compound loop, and of NBTFile.init
once the class is forced to be TAG_Compound. -/
def decodeTag (o : ByteOrder) : Nat → ReadM Tag
  | 0 => rThrow .outOfFuel
  | f + 1 => do
    let t ← readSigned o 1
    let cls ← rLift (tagsGet t)
    match cls with
    | none => rThrow .attrErr
    | some i => Tag.read o f i true

/-- NBTFile.init on an uncompressed byte source: read one signed byte,
raise IOError unless it is 0x0A, then `TAG_Compound.read(x)`. -/
def NBTFile_load (o : ByteOrder) (f : Nat) : ReadM Tag := do
  let b ← readSigned o 1
  if b ≠ 0x0A then rThrow .notValidFile
  else Tag.read o f 10 true

/-- NBTFile.save on an uncompressed sink: `self.write(w)`. -/
def NBTFile_save (o : ByteOrder) (t : Tag) : Except PyErr (List Nat) :=
  Tag.write o t

mutual

/-- Fuel sufficient for `Tag.read` to decode this tag (see the round-trip
lemmas): one step for the node itself plus fuel for the children. -/
def Tag.size : Tag → Nat
  | .byte .. | .short .. | .int .. | .long .. | .float .. | .double ..
  | .byteArray .. | .string .. | .intArray .. => 1
  | .list _ _ elems => 1 + sizeTags elems
  | .compound _ items => 2 + sizeItems items

def sizeTags : List Tag → Nat
  | [] => 0
  | t :: ts => 1 + Tag.size t + sizeTags ts

def sizeItems : List (List Nat × Tag) → Nat
  | [] => 0
  | (_, t) :: ts => 1 + Tag.size t + sizeItems ts

end

/-- Well-formedness of a `name` depending on whether the position writes
a header: absent inside a list, present (and packable) elsewhere. -/
def nameWf : Bool → Option (List Nat) → Bool
  | false, none => true
  | true, some n => decide (n.length ≤ 32767) && n.all (fun b => decide (b < 256))
  | _, _ => false

mutual

/-- The constructible, losslessly encodable tag trees: values fit their
fixed widths, names are present exactly where headers are written and
match compound keys, list elements are unnamed and match the declared
element type, and TAG_Int_Array (whose `write` always raises) is absent. -/
def Tag.wf (hn : Bool) : Tag → Bool
  | .byte nm v => nameWf hn nm && decide (-128 ≤ v ∧ v < 128)
  | .short nm v => nameWf hn nm && decide (-(2 ^ 15) ≤ v ∧ v < 2 ^ 15)
  | .int nm v => nameWf hn nm && decide (-(2 ^ 31) ≤ v ∧ v < 2 ^ 31)
  | .long nm v => nameWf hn nm && decide (-(2 ^ 63) ≤ v ∧ v < 2 ^ 63)
  | .float nm bits => nameWf hn nm && decide (bits < 2 ^ 32)
  | .double nm bits => nameWf hn nm && decide (bits < 2 ^ 64)
  | .byteArray nm v =>
      nameWf hn nm && decide (v.length < 2 ^ 31) && v.all (fun b => decide (b < 256))
  | .string nm v =>
      nameWf hn nm && decide (v.length ≤ 32767) && v.all (fun b => decide (b < 256))
  | .list nm ty elems =>
      nameWf hn nm && decide (0 ≤ ty ∧ ty ≤ 11) &&
      decide (elems.length < 2 ^ 31) && wfTags ty elems
  | .compound nm items =>
      nameWf hn nm && wfItems items && decide ((items.map Prod.fst).Nodup)
  | .intArray _ _ => false

def wfTags (ty : Int) : List Tag → Bool
  | [] => true
  | e :: es => decide ((Tag.disc e : Int) = ty) && Tag.wf false e && wfTags ty es

def wfItems : List (List Nat × Tag) → Bool
  | [] => true
  | (k, t) :: ts => decide (t.name = some k) && Tag.wf true t && wfItems ts

end

/-- One step of the reader bind: dispatch on the first result. -/
def exceptStep {α β : Type} (x : Except PyErr (α × List Nat))
    (f : α → ReadM β) : Except PyErr (β × List Nat) :=
  match x with
  | .ok (a, s1) => f a s1
  | .error e => .error e

@[simp]
theorem exceptStep_ok {α β : Type} (a : α) (s1 : List Nat)
    (f : α → ReadM β) : exceptStep (.ok (a, s1)) f = f a s1 := rfl

@[simp]
theorem exceptStep_error {α β : Type} (e : PyErr) (f : α → ReadM β) :
    exceptStep (.error e) f = .error e := rfl

@[simp]
theorem ReadM_bind_apply {α β : Type} (p : ReadM α) (f : α → ReadM β)
    (s : List Nat) :
    (p >>= f) s = exceptStep (p s) f := rfl

@[simp]
theorem ReadM_pure_apply {α : Type} (a : α) (s : List Nat) :
    (pure a : ReadM α) s = .ok (a, s) := rfl

@[simp]
theorem rThrow_apply {α : Type} (e : PyErr) (s : List Nat) :
    (rThrow e : ReadM α) s = .error e := rfl

@[simp]
theorem rLift_ok {α : Type} (a : α) (s : List Nat) :
    rLift (.ok a) s = .ok (a, s) := rfl

@[simp]
theorem rLift_error {α : Type} (e : PyErr) (s : List Nat) :
    (rLift (.error e) : ReadM α) s = .error e := rfl

theorem readBytes_exact (c r : List Nat) :
    readBytes c.length (c ++ r) = .ok (c, r) := by
  simp [readBytes]

@[simp]
theorem readBytes_nil_of_pos {n : Nat} (h : 0 < n) :
    readBytes n [] = .error .truncated := by
  simp [readBytes]
  omega

theorem natBytesLE_length (w n : Nat) : (natBytesLE w n).length = w := by
  induction w generalizing n with
  | zero => rfl
  | succ w ih => simp [natBytesLE, ih]

theorem packU_length (o : ByteOrder) (w n : Nat) : (packU o w n).length = w := by
  cases o <;> simp [packU, natBytesLE_length]

theorem bytesLE_natBytesLE (w n : Nat) (h : n < 256 ^ w) :
    bytesLE (natBytesLE w n) = n := by
  induction w generalizing n with
  | zero => simp [natBytesLE, bytesLE]; omega
  | succ w ih =>
      have hlt : n / 256 < 256 ^ w := by
        rw [Nat.div_lt_iff_lt_mul (by norm_num)]
        calc n < 256 ^ (w + 1) := h
        _ = 256 ^ w * 256 := by ring
      simp [natBytesLE, bytesLE, ih _ hlt]
      omega

theorem valU_packU (o : ByteOrder) (w n : Nat) (h : n < 256 ^ w) :
    valU o (packU o w n) = n := by
  cases o <;> simp [valU, packU, List.reverse_reverse, bytesLE_natBytesLE w n h]

/-- Reading a `w`-byte unsigned integer back from its packed bytes. -/
theorem readU_packU (o : ByteOrder) (w n : Nat) (r : List Nat) (h : n < 256 ^ w) :
    readU o w (packU o w n ++ r) = .ok (n, r) := by
  have hb := readBytes_exact (packU o w n) r
  rw [packU_length] at hb
  simp [readU, hb, valU_packU o w n h]

/-- 256 ^ w = 2 ^ (8 * w). -/
theorem pow256_eq (w : Nat) : 256 ^ w = 2 ^ (8 * w) := by
  rw [show (256 : Nat) = 2 ^ 8 by norm_num, ← Nat.pow_mul]

/-- Packing a signed in-range integer succeeds. -/
theorem packSigned_ok (o : ByteOrder) (w : Nat) (v : Int)
    (h1 : -(2 ^ (8 * w - 1)) ≤ v) (h2 : v < 2 ^ (8 * w - 1)) :
    packSigned o w v = .ok (packU o w (v % (2 ^ (8 * w))).toNat) := by
  simp [packSigned, h1, h2]

theorem toSigned_emod (w : Nat) (v : Int) (hw : 0 < w)
    (h1 : -(2 ^ (8 * w - 1)) ≤ v) (h2 : v < 2 ^ (8 * w - 1)) :
    toSigned w (v % (2 ^ (8 * w))).toNat = v := by
  have c1 : ((2 ^ (8 * w - 1) : Nat) : Int) = 2 ^ (8 * w - 1) := by push_cast; rfl
  have c2 : ((2 ^ (8 * w) : Nat) : Int) = 2 ^ (8 * w) := by push_cast; rfl
  have c3 : (2 : Int) ^ (8 * w) = 2 * 2 ^ (8 * w - 1) := by
    rw [← pow_succ']
    congr 1
    omega
  have hmods : (0 : Int) ≤ v % (2 ^ (8 * w)) := Int.emod_nonneg v (by positivity)
  have hcases : v % (2 ^ (8 * w)) = v ∨ v % (2 ^ (8 * w)) = v + 2 ^ (8 * w) := by
    rcases le_or_lt 0 v with hv | hv
    · left
      exact Int.emod_eq_of_lt hv (by omega)
    · right
      have he : (v + 2 ^ (8 * w)) % (2 ^ (8 * w)) = v % (2 ^ (8 * w)) := by
        simp [Int.add_mul_emod_self_left]
      rw [← he]
      exact Int.emod_eq_of_lt (by omega) (by omega)
  unfold toSigned
  rcases hcases with hc | hc <;> rw [hc] <;> split <;> omega

/-- Reading back a packed signed integer restores it (two's complement). -/
theorem readSigned_packSigned (o : ByteOrder) (w : Nat) (v : Int) (r : List Nat)
    (hw : 0 < w) (h1 : -(2 ^ (8 * w - 1)) ≤ v) (h2 : v < 2 ^ (8 * w - 1)) :
    readSigned o w (packU o w (v % (2 ^ (8 * w))).toNat ++ r) = .ok (v, r) := by
  have c2 : ((2 ^ (8 * w) : Nat) : Int) = 2 ^ (8 * w) := by push_cast; rfl
  have hmods : (0 : Int) ≤ v % (2 ^ (8 * w)) := Int.emod_nonneg v (by positivity)
  have hmodlt : v % (2 ^ (8 * w)) < 2 ^ (8 * w) :=
    Int.emod_lt_of_pos v (by positivity)
  have hlt : (v % (2 ^ (8 * w))).toNat < 256 ^ w := by
    rw [pow256_eq]
    omega
  have hru := readU_packU o w (v % (2 ^ (8 * w))).toNat r hlt
  simp only [readSigned, ReadM_bind_apply, hru, exceptStep_ok,
    ReadM_pure_apply, toSigned_emod w v hw h1 h2]

/-- Reading one signed byte from the head of the stream. -/
theorem readSigned_cons (o : ByteOrder) (b : Nat) (s : List Nat) :
    readSigned o 1 (b :: s) = .ok (toSigned 1 b, s) := by
  have h := readBytes_exact [b] s
  simp only [List.length_cons, List.length_nil, Nat.zero_add, List.cons_append,
    List.nil_append] at h
  cases o <;> simp [readSigned, readU, h, valU, bytesLE]

theorem packSigned_nonneg (o : ByteOrder) (w : Nat) (n : Nat) (hw : 0 < w)
    (h : (n : Int) < 2 ^ (8 * w - 1)) :
    packSigned o w (n : Int) = .ok (packU o w n) := by
  have hp : (0 : Int) < 2 ^ (8 * w - 1) := by positivity
  have hp2 : (0 : Int) < 2 ^ (8 * w) := by positivity
  have c3 : (2 : Int) ^ (8 * w) = 2 * 2 ^ (8 * w - 1) := by
    rw [← pow_succ']
    congr 1
    omega
  have h1 : -(2 ^ (8 * w - 1)) ≤ (n : Int) := by
    have := Int.natCast_nonneg n
    omega
  rw [packSigned_ok o w _ h1 h]
  congr 2
  have he : (n : Int) % 2 ^ (8 * w) = n := Int.emod_eq_of_lt (by omega) (by omega)
  rw [he]
  omega

theorem readSigned_small (o : ByteOrder) (w n : Nat) (r : List Nat) (hw : 0 < w)
    (h : (n : Int) < 2 ^ (8 * w - 1)) :
    readSigned o w (packU o w n ++ r) = .ok ((n : Int), r) := by
  have c1 : ((2 ^ (8 * w - 1) : Nat) : Int) = 2 ^ (8 * w - 1) := by push_cast; rfl
  have hn : n < 2 ^ (8 * w - 1) := by omega
  have hlt : n < 256 ^ w := by
    rw [pow256_eq]
    have := Nat.pow_le_pow_right (by omega : 1 ≤ 2) (by omega : 8 * w - 1 ≤ 8 * w)
    omega
  simp only [readSigned, ReadM_bind_apply, readU_packU o w n r hlt,
    exceptStep_ok, ReadM_pure_apply, toSigned, if_pos hn]

theorem write_utf8_wf (o : ByteOrder) (v : List Nat) (h : v.length ≤ 32767) :
    write_utf8 o v = .ok (packU o 2 v.length ++ v) := by
  have hp : packSigned o 2 (v.length : Int) = .ok (packU o 2 v.length) := by
    apply packSigned_nonneg o 2 v.length (by omega)
    norm_num
    omega
  simp [write_utf8, hp]

theorem read_utf8_wf (o : ByteOrder) (v r : List Nat) (h : v.length ≤ 32767) :
    read_utf8 o (packU o 2 v.length ++ (v ++ r)) = .ok (v, r) := by
  have hr := readSigned_small o 2 v.length (v ++ r) (by omega)
    (by norm_num; omega)
  simp only [read_utf8, ReadM_bind_apply, hr, exceptStep_ok]
  rw [if_neg (by omega)]
  simp only [Int.toNat_natCast]
  exact readBytes_exact v r

theorem packU_one (o : ByteOrder) (d : Nat) (h : d < 256) :
    packU o 1 d = [d] := by
  cases o <;> simp [packU, natBytesLE, Nat.mod_eq_of_lt h]

theorem writeHead_some (o : ByteOrder) (d : Nat) (n : List Nat)
    (hd : d < 128) (h : n.length ≤ 32767) :
    writeHead o d (some n) = .ok (d :: (packU o 2 n.length ++ n)) := by
  have hp : packSigned o 1 (d : Int) = .ok (packU o 1 d) := by
    apply packSigned_nonneg o 1 d (by omega)
    norm_num
    omega
  simp [writeHead, hp, write_utf8_wf o n h, packU_one o d (by omega)]
  rfl

theorem toSigned_one (b : Nat) :
    toSigned 1 b = if b < 128 then (b : Int) else (b : Int) - 256 := by
  unfold toSigned
  norm_num

theorem readSigned_exact (o : ByteOrder) (w : Nat) (c r : List Nat)
    (h : c.length = w) :
    readSigned o w (c ++ r) = .ok (toSigned w (valU o c), r) := by
  have hb := readBytes_exact c r
  rw [h] at hb
  simp [readSigned, readU, hb]

theorem Tag.setName_name (n : Option (List Nat)) (t : Tag) :
    (t.setName n).name = n := by
  cases t <;> rfl

theorem dictGet_dictInsert (l : List (List Nat × Tag)) (k : List Nat) (v : Tag) :
    dictGet (dictInsert l k v) k = some v := by
  induction l with
  | nil => simp [dictInsert, dictGet]
  | cons h t ih =>
      obtain ⟨k1, v1⟩ := h
      by_cases hk : k1 = k <;> simp [dictInsert, dictGet, hk, ih]

/-- Claim C3: loading a document reads one leading 1-byte discriminant and
fails with IOError (the FormatError of the spec) unless that byte is the
TAG_Compound discriminant 0x0A; in particular every stream whose first
byte is 0x09 (TAG_List) is rejected. -/
theorem C3_load_rejects_non_compound (o : ByteOrder) (f : Nat) (b : Nat)
    (s s9 : List Nat) (hb : b < 256) (hne : b ≠ 10) :
    NBTFile_load o f (b :: s) = .error .notValidFile ∧
    NBTFile_load o f (9 :: s9) = .error .notValidFile := by
  constructor
  · have hts : toSigned 1 b ≠ 10 := by
      rw [toSigned_one]
      split <;> omega
    simp [NBTFile_load, readSigned_cons, hts]
  · have hts : toSigned 1 9 = 9 := by rw [toSigned_one]; norm_num
    simp [NBTFile_load, readSigned_cons, hts]

/-- Witness for C3 at a concrete input. -/
theorem C3_load_rejects_non_compound_witness :
    NBTFile_load .be 5 [9, 10, 0] = .error .notValidFile ∧
    NBTFile_load .be 5 [9] = .error .notValidFile :=
  ⟨(C3_load_rejects_non_compound .be 5 9 [10, 0] [10, 0] (by decide)
      (by decide)).2,
   (C3_load_rejects_non_compound .be 5 9 [] [] (by decide) (by decide)).2⟩

/-- Claim C5 counterexample: constructing a TAG_List whose declared element
type is Byte (1) from a TAG_String element succeeds and raises nothing;
no TypeMismatchError exists anywhere in the source. -/
theorem C5_heterogeneous_list_accepted :
    TAG_List_init (.int 1) [.string none [97]] none =
      .ok (.list none 1 [.string none [97]]) ∧
    (TAG_List_init (.int 1) [.string none [97]] none).isOk = true := by
  constructor <;> rfl

/-- Claim C5, amended: TAG_List.init performs no validation at all — for
every declared tag type, element list and name it returns the constructed
list unchanged, never an error. -/
theorem C5_list_init_never_validates (tt : TagTypeArg) (v : List Tag)
    (n : Option (List Nat)) :
    TAG_List_init tt v n = .ok (.list n tt.toInt v) := rfl

/-- Claim C6: TAG_Compound.setitem sets the inserted tag's name to the key
when the name is unset, and stores an already-named tag unchanged (its
name is not overwritten by a conflicting key). -/
theorem C6_setitem_name_propagation (items : List (List Nat × Tag))
    (key : List Nat) (v : Tag) :
    (v.name = none →
      dictGet (TAG_Compound_setitem items key v) key =
        some (v.setName (some key)) ∧
      (v.setName (some key)).name = some key) ∧
    (∀ n, v.name = some n →
      dictGet (TAG_Compound_setitem items key v) key = some v ∧
      v.name = some n) := by
  constructor
  · intro hn
    unfold TAG_Compound_setitem
    rw [if_pos hn]
    exact ⟨dictGet_dictInsert items key _, Tag.setName_name _ v⟩
  · intro n hn
    unfold TAG_Compound_setitem
    rw [if_neg (by rw [hn]; simp)]
    exact ⟨dictGet_dictInsert items key v, hn⟩

/-- Witness for C6: an unnamed TAG_Byte inserted under key "a" gets name
"a"; a TAG_Byte named "b" inserted under key "a" keeps name "b". -/
theorem C6_setitem_name_propagation_witness :
    (dictGet (TAG_Compound_setitem [] [97] (.byte none 7)) [97] =
        some ((Tag.byte none 7).setName (some [97])) ∧
      ((Tag.byte none 7).setName (some [97])).name = some [97]) ∧
    (dictGet (TAG_Compound_setitem [] [97] (.byte (some [98]) 7)) [97] =
        some (.byte (some [98]) 7) ∧
      (Tag.byte (some [98]) 7).name = some [98]) :=
  ⟨(C6_setitem_name_propagation [] [97] (.byte none 7)).1 rfl,
   (C6_setitem_name_propagation [] [97] (.byte (some [98]) 7)).2 [98] rfl⟩

/-- Claim C10: decoding a TAG_List whose declared 4-byte signed element
count is negative does not fail: `range(0, length)` is empty, so the
result is a list with zero elements and no element bytes are consumed. -/
theorem C10_negative_list_count_empty (o : ByteOrder) (f : Nat) (c r : List Nat)
    (hlen : c.length = 4) (hneg : toSigned 4 (valU o c) < 0) :
    Tag.read o (f + 1) 9 false (1 :: (c ++ r)) = .ok (.list none 1 [], r) := by
  have h1 : toSigned 1 1 = 1 := by decide
  have h4 := readSigned_exact o 4 c r hlen
  have htn : (toSigned 4 (valU o c)).toNat = 0 := Int.toNat_of_nonpos hneg.le
  have hg : tagsGet 1 = .ok (some 1) := rfl
  have hz : readListElems o f 1 0 = pure [] := by cases f <;> rfl
  rw [Tag.read]
  simp [ReadM_bind_apply, ReadM_pure_apply, ite_apply, readSigned_cons,
    h1, h4, hg, rLift_ok, htn, hz, Tag.setName]

/-- Witness for C10: element count -1 (bytes FF FF FF FF) decodes to an
empty list, leaving the rest of the stream untouched. -/
theorem C10_negative_list_count_empty_witness :
    Tag.read .be 1 9 false (1 :: ([255, 255, 255, 255] ++ [42])) =
      .ok (.list none 1 [], [42]) :=
  C10_negative_list_count_empty .be 0 [255, 255, 255, 255] [42]
    (by decide) (by decide)

/-- Claim C8: every `write` method first checks `self.name is not None`;
when the name is None neither the 1-byte discriminant nor the name is
emitted — only the payload (`Tag.writeBody`) is written.  Concretely, an
unnamed TAG_Byte 7 writes the single byte [7], which the read dispatch
cannot reconstruct (it misreads 7 as a TAG_Byte_Array discriminant and
fails). -/
theorem C8_unnamed_write_skips_header (o : ByteOrder) (t : Tag)
    (h : t.name = none) :
    Tag.write o t = Tag.writeBody o t ∧
    Tag.write .be (.byte none 7) = .ok [7] ∧
    decodeTag .be 5 [7] = .error .truncated := by
  refine ⟨?_, rfl, rfl⟩
  cases t <;> simp [Tag.name] at h <;> subst h <;>
    simp [Tag.write, Tag.writeBody, writeHead]

/-- Witness for C8 at the unnamed TAG_Byte 7. -/
theorem C8_unnamed_write_skips_header_witness :
    Tag.write .be (.byte none 7) = Tag.writeBody .be (.byte none 7) ∧
    Tag.write .be (.byte none 7) = .ok [7] ∧
    decodeTag .be 5 [7] = .error .truncated :=
  C8_unnamed_write_skips_header .be (.byte none 7) rfl

/-- Claim C9: a later binding for the same key replaces the earlier one in
a Python dict, so decoding a Compound whose stream contains two children
named "a" (values 5 then 7) silently keeps only the last child and raises
no error. -/
theorem C9_duplicate_child_last_wins :
    (∀ l k v1 v2, dictInsert (dictInsert l k v1) k v2 = dictInsert l k v2) ∧
    Tag.read .be 10 10 true [0, 0, 1, 0, 1, 97, 5, 1, 0, 1, 97, 7, 0] =
      .ok (.compound (some []) [([97], .byte (some [97]) 7)], []) := by
  constructor
  · intro l k v1 v2
    induction l with
    | nil => simp [dictInsert]
    | cons h t ih =>
        obtain ⟨k1, w⟩ := h
        by_cases hk : k1 = k <;> simp [dictInsert, hk, ih]
  · rfl

/-- Claim C7: a TAG_List with zero elements and declared element type End
encodes (after its header) to exactly the byte 0 followed by the 4-byte
count 0, and that encoding decodes back to the empty list; with a name
the same five payload bytes follow the header, in either byte order. -/
theorem C7_empty_list_roundtrip (o : ByteOrder) (f : Nat) (r : List Nat) :
    Tag.write o (.list none 0 []) = .ok [0, 0, 0, 0, 0] ∧
    Tag.read o (f + 1) 9 false ([0, 0, 0, 0, 0] ++ r) =
      .ok (.list none 0 [], r) ∧
    Tag.write .be (.list (some [97]) 0 []) =
      .ok ([9, 0, 1, 97] ++ [0, 0, 0, 0, 0]) ∧
    decodeTag .be 3 ([9, 0, 1, 97] ++ [0, 0, 0, 0, 0]) =
      .ok (.list (some [97]) 0 [], []) ∧
    Tag.write .le (.list (some [97]) 0 []) =
      .ok ([9, 1, 0, 97] ++ [0, 0, 0, 0, 0]) ∧
    decodeTag .le 3 ([9, 1, 0, 97] ++ [0, 0, 0, 0, 0]) =
      .ok (.list (some [97]) 0 [], []) := by
  refine ⟨by cases o <;> rfl, ?_, rfl, rfl, rfl, rfl⟩
  have h0 : toSigned 1 0 = 0 := by decide
  have h4 : readSigned o 4 (0 :: 0 :: 0 :: 0 :: r) = .ok (0, r) := by
    have h := readSigned_exact o 4 [0, 0, 0, 0] r (by decide)
    cases o <;> simpa using h
  have hg : tagsGet 0 = .ok none := rfl
  have hs : ([0, 0, 0, 0, 0] : List Nat) ++ r = 0 :: ([0, 0, 0, 0] ++ r) := rfl
  rw [hs, Tag.read]
  simp [ReadM_bind_apply, ReadM_pure_apply, ite_apply, readSigned_cons,
    h0, h4, hg, rLift_ok, Tag.setName]


/-- Claim C4 (code bug): the source packs and unpacks name/String lengths
with the signed 2-byte struct code h, not an unsigned one.  Writing a
32768-byte string raises struct.error instead of emitting the unsigned
length 0x8000, and any stream whose 2-byte big-endian length prefix is
0x8000 is read as length -32768 and raises struct.error from the malformed
format string, instead of reading 32768 content bytes.  Lengths 0..32767
behave as the claim states (see `write_utf8_wf` / `read_utf8_wf`). -/
theorem C4_string_length_signed_not_unsigned :
    write_utf8 .be (List.replicate 32768 97) = .error .packRange ∧
    ∀ v : List Nat, read_utf8 .be (128 :: 0 :: v) = .error .structFmt := by
  constructor
  · have hp : packSigned .be 2 (((List.replicate 32768 97).length : Nat) : Int) =
        .error .packRange := by
      rw [List.length_replicate]
      norm_num [packSigned]
    rw [write_utf8, hp]
    rfl
  · intro v
    have hb : readBytes 2 (128 :: 0 :: v) = .ok ([128, 0], v) := by
      have h := readBytes_exact [128, 0] v
      simpa using h
    have hts : toSigned 2 32768 = -32768 := by decide
    have hs : readSigned .be 2 (128 :: 0 :: v) = .ok (-32768, v) := by
      simp [readSigned, readU, hb, valU, bytesLE, hts]
    rw [read_utf8]
    simp [hs]

/-- A parser that interacts sanely with truncation: whatever it consumes
is an initial segment of the stream, its result depends only on the
consumed bytes, and on every proper prefix of the consumed bytes (with
nothing behind it) it fails with the truncation error. -/
structure GoodP {α : Type} (p : ReadM α) : Prop where
  consumes : ∀ s a r, p s = .ok (a, r) → ∃ c, s = c ++ r
  stable : ∀ c r r1 a, p (c ++ r) = .ok (a, r) → p (c ++ r1) = .ok (a, r1)
  trunc : ∀ c r a, p (c ++ r) = .ok (a, r) → ∀ k, k < c.length →
    p (c.take k) = .error .truncated

theorem goodRThrow {α : Type} (e : PyErr) : GoodP (rThrow e : ReadM α) := by
  constructor
  · intro s a r h
    simp [rThrow] at h
  · intro c r r1 a h
    simp [rThrow] at h
  · intro c r a h
    simp [rThrow] at h

theorem goodPure {α : Type} (a : α) : GoodP (pure a : ReadM α) := by
  have key : ∀ c r b, (pure a : ReadM α) (c ++ r) = .ok (b, r) →
      c = [] ∧ b = a := by
    intro c r b h
    simp only [ReadM_pure_apply, Except.ok.injEq, Prod.mk.injEq] at h
    obtain ⟨h1, h2⟩ := h
    simp at h2
    exact ⟨h2, h1.symm⟩
  constructor
  · intro s a1 r h
    simp only [ReadM_pure_apply, Except.ok.injEq, Prod.mk.injEq] at h
    exact ⟨[], by simp [h.2]⟩
  · intro c r r1 b h
    obtain ⟨rfl, rfl⟩ := key c r b h
    rfl
  · intro c r b h k hk
    obtain ⟨rfl, -⟩ := key c r b h
    simp at hk

theorem goodRLift {α : Type} (x : Except PyErr α) : GoodP (rLift x) := by
  cases x with
  | ok a =>
      have he : rLift (α := α) (.ok a) = pure a := rfl
      rw [he]
      exact goodPure a
  | error e =>
      have he : rLift (α := α) (.error e) = rThrow e := rfl
      rw [he]
      exact goodRThrow e

theorem readBytes_ok_length {n : Nat} {s a r : List Nat}
    (h : readBytes n s = .ok (a, r)) :
    a = s.take n ∧ r = s.drop n ∧ n ≤ s.length := by
  unfold readBytes at h
  split at h
  · simp only [Except.ok.injEq, Prod.mk.injEq] at h
    rename_i hle
    exact ⟨h.1.symm, h.2.symm, hle⟩
  · simp at h

theorem goodReadBytes (n : Nat) : GoodP (readBytes n) := by
  have key : ∀ c r a, readBytes n (c ++ r) = .ok (a, r) →
      c.length = n ∧ a = c := by
    intro c r a h
    obtain ⟨ha, hr, hle⟩ := readBytes_ok_length h
    simp only [List.length_append] at hle
    have hd := congrArg List.length hr
    simp only [List.length_drop, List.length_append] at hd
    have hcn : c.length = n := by omega
    refine ⟨hcn, ?_⟩
    rw [ha, ← hcn, List.take_left]
  constructor
  · intro s a r h
    obtain ⟨ha, hr, hle⟩ := readBytes_ok_length h
    exact ⟨s.take n, by rw [hr, List.take_append_drop]⟩
  · intro c r r1 a h
    obtain ⟨hcn, rfl⟩ := key c r a h
    unfold readBytes
    rw [if_pos (by simp [← hcn])]
    rw [← hcn, List.take_left, List.drop_left]
  · intro c r a h k hk
    obtain ⟨hcn, rfl⟩ := key c r a h
    unfold readBytes
    rw [if_neg (by simp [List.length_take]; omega)]

theorem goodBind {α β : Type} {p : ReadM α} {f : α → ReadM β}
    (hp : GoodP p) (hf : ∀ a, GoodP (f a)) : GoodP (p >>= f) := by
  constructor
  · intro s b r h
    rw [ReadM_bind_apply] at h
    cases hps : p s with
    | error e => rw [hps] at h; simp at h
    | ok x =>
        obtain ⟨a, m⟩ := x
        rw [hps] at h
        obtain ⟨c1, hc1⟩ := hp.consumes s a m hps
        obtain ⟨c2, hc2⟩ := (hf a).consumes m b r h
        exact ⟨c1 ++ c2, by rw [hc1, hc2, List.append_assoc]⟩
  · intro c r r1 b h
    rw [ReadM_bind_apply] at h
    cases hps : p (c ++ r) with
    | error e => rw [hps] at h; simp at h
    | ok x =>
        obtain ⟨a, m⟩ := x
        rw [hps] at h
        obtain ⟨c2, hc2⟩ := (hf a).consumes m b r h
        subst hc2
        obtain ⟨c1, hc1⟩ := hp.consumes (c ++ r) a (c2 ++ r) hps
        have hcc : c = c1 ++ c2 := by
          rw [← List.append_assoc] at hc1
          exact List.append_cancel_right hc1
        subst hcc
        rw [hc1] at hps
        have hp1 : p (c1 ++ (c2 ++ r1)) = .ok (a, c2 ++ r1) :=
          hp.stable c1 (c2 ++ r) (c2 ++ r1) a hps
        have hf1 : f a (c2 ++ r1) = .ok (b, r1) :=
          (hf a).stable c2 r r1 b h
        rw [ReadM_bind_apply, List.append_assoc, hp1]
        exact hf1
  · intro c r b h k hk
    rw [ReadM_bind_apply] at h
    cases hps : p (c ++ r) with
    | error e => rw [hps] at h; simp at h
    | ok x =>
        obtain ⟨a, m⟩ := x
        rw [hps] at h
        obtain ⟨c2, hc2⟩ := (hf a).consumes m b r h
        subst hc2
        obtain ⟨c1, hc1⟩ := hp.consumes (c ++ r) a (c2 ++ r) hps
        have hcc : c = c1 ++ c2 := by
          rw [← List.append_assoc] at hc1
          exact List.append_cancel_right hc1
        subst hcc
        rw [hc1] at hps
        rcases Nat.lt_or_ge k c1.length with hk1 | hk1
        · have htk : (c1 ++ c2).take k = c1.take k := by
            rw [List.take_append_eq_append_take]
            have : k - c1.length = 0 := by omega
            simp [this]
          rw [htk, ReadM_bind_apply,
            hp.trunc c1 (c2 ++ r) a hps k hk1]
          rfl
        · have htk : (c1 ++ c2).take k = c1 ++ c2.take (k - c1.length) := by
            rw [List.take_append_eq_append_take]
            congr 1
            exact List.take_of_length_le hk1
          have hk2 : k - c1.length < c2.length := by
            simp only [List.length_append] at hk
            omega
          have hp1 : p (c1 ++ (c2.take (k - c1.length))) =
              .ok (a, c2.take (k - c1.length)) :=
            hp.stable c1 (c2 ++ r) (c2.take (k - c1.length)) a hps
          rw [htk, ReadM_bind_apply, hp1]
          exact (hf a).trunc c2 r b h (k - c1.length) hk2

theorem goodIte {α : Type} (c : Prop) [Decidable c] {p q : ReadM α}
    (hp : GoodP p) (hq : GoodP q) : GoodP (if c then p else q) := by
  split
  · exact hp
  · exact hq

theorem goodReadU (o : ByteOrder) (w : Nat) : GoodP (readU o w) :=
  goodBind (goodReadBytes w) (fun _ => goodPure _)

theorem goodReadSigned (o : ByteOrder) (w : Nat) : GoodP (readSigned o w) :=
  goodBind (goodReadU o w) (fun _ => goodPure _)

theorem goodReadUtf8 (o : ByteOrder) : GoodP (read_utf8 o) :=
  goodBind (goodReadSigned o 2)
    (fun length => goodIte _ (goodRThrow _) (goodReadBytes length.toNat))

theorem goodReadInts (o : ByteOrder) (n : Nat) : GoodP (readInts o n) := by
  induction n with
  | zero => exact goodPure []
  | succ n ih =>
      exact goodBind (goodReadSigned o 4)
        (fun i => goodBind ih (fun is => goodPure (i :: is)))

/-- All three mutually recursive readers are well behaved on truncation,
at every fuel. -/
theorem goodReaders (o : ByteOrder) : ∀ f : Nat,
    (∀ idx hn, GoodP (Tag.read o f idx hn)) ∧
    (∀ final, GoodP (readCompoundLoop o f final)) ∧
    (∀ idx n, GoodP (readListElems o f idx n)) := by
  intro f
  induction f with
  | zero =>
      refine ⟨fun idx hn => goodRThrow _, fun final => goodRThrow _,
        fun idx n => ?_⟩
      cases n with
      | zero => exact goodPure []
      | succ n => exact goodRThrow _
  | succ f ih =>
      obtain ⟨ihT, ihL, ihE⟩ := ih
      refine ⟨fun idx hn => ?_, fun final => ?_, fun idx n => ?_⟩
      · rw [Tag.read]
        apply goodBind
        · exact goodIte _ (goodBind (goodReadUtf8 o) fun x => goodPure _)
            (goodPure _)
        · intro name
          refine goodBind ?_ (fun t => goodPure _)
          apply goodIte
          · exact goodBind (ihL []) fun items => goodPure _
          · apply goodIte
            · apply goodBind (goodReadSigned o 1)
              intro tag_type
              apply goodBind (goodReadSigned o 4)
              intro length
              apply goodBind (goodRLift _)
              intro real_type
              cases real_type with
              | some i => exact goodBind (ihE i length.toNat) fun elems =>
                  goodPure _
              | none => exact goodIte _ (goodPure _) (goodRThrow _)
            · apply goodIte
              · exact goodBind (goodReadUtf8 o) fun v => goodPure _
              · apply goodIte
                · apply goodBind (goodReadSigned o 4)
                  intro length
                  exact goodIte _ (goodRThrow _)
                    (goodBind (goodReadBytes length.toNat) fun v => goodPure _)
                · apply goodIte
                  · apply goodBind (goodReadSigned o 4)
                    intro length
                    apply goodIte _ (goodRThrow _)
                    apply goodBind (goodReadInts o length.toNat)
                    intro ints
                    cases ints with
                    | nil => exact goodRThrow _
                    | cons i is => exact goodPure _
                  · apply goodIte
                    · exact goodBind (goodReadSigned o 1) fun v => goodPure _
                    · apply goodIte
                      · exact goodBind (goodReadSigned o 2) fun v => goodPure _
                      · apply goodIte
                        · exact goodBind (goodReadSigned o 4) fun v =>
                            goodPure _
                        · apply goodIte
                          · exact goodBind (goodReadSigned o 8) fun v =>
                              goodPure _
                          · apply goodIte
                            · exact goodBind (goodReadU o 4) fun v =>
                                goodPure _
                            · exact goodIte _
                                (goodBind (goodReadU o 8) fun v => goodPure _)
                                (goodRThrow _)
      · rw [readCompoundLoop]
        apply goodBind (goodReadSigned o 1)
        intro tag
        apply goodIte
        · exact goodPure _
        · apply goodBind (goodRLift _)
          intro cls
          cases cls with
          | none => exact goodRThrow _
          | some i => exact goodBind (ihT i true) fun tmp => ihL _
      · cases n with
        | zero => exact goodPure []
        | succ n =>
            exact goodBind (ihT idx false) fun e =>
              goodBind (ihE idx n) fun es => goodPure _

/-- Claim C2: the Compound loop reads a 1-byte discriminant each turn and
stops exactly when that byte is the End sentinel 0, consuming it; an
exhausted stream fails with struct.error (truncation); and whenever a
Compound (with header) decodes successfully consuming a whole stream,
every proper prefix of that stream — including one whose child sequence
never reaches End — fails with the truncation error. -/
theorem C2_compound_end_and_truncation (o : ByteOrder) :
    (∀ f final r, readCompoundLoop o (f + 1) final (0 :: r) = .ok (final, r)) ∧
    (∀ f final, readCompoundLoop o (f + 1) final [] = .error .truncated) ∧
    (∀ f s t, Tag.read o f 10 true s = .ok (t, []) →
      ∀ k, k < s.length → Tag.read o f 10 true (s.take k) = .error .truncated) := by
  refine ⟨?_, ?_, ?_⟩
  · intro f final r
    have h0 : toSigned 1 0 = 0 := by decide
    rw [readCompoundLoop]
    simp [ReadM_bind_apply, readSigned_cons, h0]
  · intro f final
    rw [readCompoundLoop]
    rfl
  · intro f s t h k hk
    have g := ((goodReaders o f).1 10 true)
    exact g.trunc s [] t (by simpa using h) k hk

/-- Witness for C2: the loop stops on the End byte; the empty stream is a
truncation error; and cutting the 3-byte encoding of an empty named
Compound one byte short fails with the truncation error. -/
theorem C2_compound_end_and_truncation_witness :
    readCompoundLoop .be 1 [] (0 :: [7]) = .ok ([], [7]) ∧
    readCompoundLoop .be 1 [] [] = .error .truncated ∧
    Tag.read .be 2 10 true ([0, 0, 0].take 2) = .error .truncated :=
  ⟨(C2_compound_end_and_truncation .be).1 0 [] [7],
   (C2_compound_end_and_truncation .be).2.1 0 [],
   (C2_compound_end_and_truncation .be).2.2 2 [0, 0, 0]
     (.compound (some []) []) rfl 2 (by decide)⟩

theorem Tag.setName_setName (a b : Option (List Nat)) (t : Tag) :
    (t.setName a).setName b = t.setName b := by
  cases t <;> rfl

theorem Tag.setName_self {nm : Option (List Nat)} {t : Tag}
    (h : t.name = nm) : t.setName nm = t := by
  cases t <;> simp [Tag.name] at h <;> simp [Tag.setName, h]

theorem Tag.setName_size (nm : Option (List Nat)) (t : Tag) :
    (t.setName nm).size = t.size := by
  cases t <;> rfl

theorem Tag.setName_disc (nm : Option (List Nat)) (t : Tag) :
    (t.setName nm).disc = t.disc := by
  cases t <;> rfl

theorem Tag.size_pos (t : Tag) : 1 ≤ t.size := by
  cases t <;> simp [Tag.size] <;> omega

theorem Tag.disc_range (t : Tag) : 1 ≤ t.disc ∧ t.disc ≤ 11 := by
  cases t <;> simp [Tag.disc]

theorem nameWf_false {x : Option (List Nat)} (h : nameWf false x = true) :
    x = none := by
  cases x with
  | none => rfl
  | some n => simp [nameWf] at h

theorem Tag.wf_setName_none {hn : Bool} {t : Tag}
    (h : Tag.wf hn t = true) : Tag.wf false (t.setName none) = true := by
  cases t <;>
    simp only [Tag.wf, Tag.setName, Bool.and_eq_true, nameWf] at h ⊢ <;>
    tauto

theorem tagsGet_nat (i : Nat) (h : i ≤ 11) :
    tagsGet (i : Int) = .ok (if i = 0 then none else some i) := by
  unfold tagsGet
  rw [if_pos (by constructor <;> omega)]
  congr 1
  by_cases hi : i = 0
  · subst hi
    simp
  · simp [hi, Int.natCast_eq_zero]

theorem mapName_inv (x : Except PyErr (Tag × List Nat)) (nm : List Nat)
    (t : Tag) (r : List Nat)
    (h : exceptStep x (fun a => pure (a.setName none)) = .ok (t, r)) :
    exceptStep x (fun a => pure (a.setName (some nm))) =
      .ok (t.setName (some nm), r) := by
  cases x with
  | error e => simp at h
  | ok p =>
      obtain ⟨a, s1⟩ := p
      simp only [exceptStep_ok, ReadM_pure_apply, Except.ok.injEq,
        Prod.mk.injEq] at h ⊢
      exact ⟨by rw [← h.1, Tag.setName_setName], h.2⟩

/-- Reading with a header: the name is read first, then the payload is
parsed exactly as in the nameless case, and the name is attached. -/
theorem read_named (o : ByteOrder) (f : Nat) (idx : Nat) (nm : List Nat)
    (s r : List Nat) (t : Tag) (hnm : nm.length ≤ 32767)
    (h : Tag.read o (f + 1) idx false (s ++ r) = .ok (t, r)) :
    Tag.read o (f + 1) idx true (packU o 2 nm.length ++ (nm ++ (s ++ r))) =
      .ok (t.setName (some nm), r) := by
  rw [Tag.read] at h ⊢
  simp only [ReadM_bind_apply, ReadM_pure_apply, Bool.false_eq_true,
    if_false] at h
  simp only [ReadM_bind_apply, ReadM_pure_apply, if_true,
    read_utf8_wf o nm (s ++ r) hnm]
  exact mapName_inv _ nm t r h

@[simp]
theorem Except_ok_bind {ε α β : Type} (a : α) (f : α → Except ε β) :
    (Except.ok a >>= f) = f a := rfl

@[simp]
theorem Except_error_bind {ε α β : Type} (e : ε) (f : α → Except ε β) :
    ((Except.error e : Except ε α) >>= f) = (Except.error e : Except ε β) := rfl

theorem packSigned_error {o : ByteOrder} {w : Nat} {v : Int} {e : PyErr}
    (h : packSigned o w v = .error e) : e = .packRange := by
  unfold packSigned at h
  split at h
  · exact Except.noConfusion h
  · simp only [Except.error.injEq] at h
    exact h.symm

theorem writeHead_none_eq (o : ByteOrder) (d : Nat) :
    writeHead o d none = pure [] := rfl

theorem writeHead_some_eq (o : ByteOrder) (d : Nat) (n : List Nat) :
    writeHead o d (some n) =
      (packSigned o 1 (d : Int) >>= fun db =>
        write_utf8 o n >>= fun nb => pure (db ++ nb)) := rfl

theorem writeHead_error_eq {o : ByteOrder} {d : Nat} {nm : Option (List Nat)}
    {e : PyErr} (h : writeHead o d nm = .error e) : e = .packRange := by
  cases nm with
  | none => exact Except.noConfusion h
  | some n =>
      rw [writeHead_some_eq] at h
      cases h1 : packSigned o 1 (d : Int) with
      | error e1 =>
          rw [h1, Except_error_bind] at h
          simp only [Except.error.injEq] at h
          exact h ▸ packSigned_error h1
      | ok d1 =>
          rw [h1, Except_ok_bind] at h
          unfold write_utf8 at h
          cases h2 : packSigned o 2 ((n.length : Nat) : Int) with
          | error e2 =>
              rw [h2, Except_error_bind, Except_error_bind] at h
              simp only [Except.error.injEq] at h
              exact h ▸ packSigned_error h2
          | ok l2 =>
              rw [h2, Except_ok_bind] at h
              exact Except.noConfusion h

theorem Tag.write_eq_head_body (o : ByteOrder) (t : Tag) :
    Tag.write o t = (do
      let hd ← writeHead o t.disc t.name
      let pb ← Tag.writeBody o t
      pure (hd ++ pb)) := by
  cases t
  case intArray nm v =>
    cases h : writeHead o 11 nm with
    | ok hd => simp [Tag.write, Tag.writeBody, Tag.disc, Tag.name, h]
    | error e =>
        rw [writeHead_error_eq h] at h
        simp [Tag.write, Tag.writeBody, Tag.disc, Tag.name, h]
  all_goals simp [Tag.write, Tag.writeBody, Tag.disc, Tag.name, bind_assoc]

theorem Tag.writeBody_setName (o : ByteOrder) (nm : Option (List Nat))
    (t : Tag) : Tag.writeBody o (t.setName nm) = Tag.writeBody o t := by
  cases t <;> rfl

theorem write_unnamed_body {o : ByteOrder} {t : Tag} {pb : List Nat}
    (hname : t.name = none) (hw : Tag.write o t = .ok pb) :
    Tag.writeBody o t = .ok pb := by
  rw [Tag.write_eq_head_body, hname] at hw
  simpa [writeHead] using hw

theorem write_named (o : ByteOrder) (t : Tag) (nm : List Nat)
    (hname : t.name = some nm) (hlen : nm.length ≤ 32767) (pb : List Nat)
    (hw : Tag.write o (t.setName none) = .ok pb) :
    Tag.write o t = .ok (t.disc :: (packU o 2 nm.length ++ nm ++ pb)) := by
  have hwb : Tag.writeBody o t = .ok pb := by
    have h1 := write_unnamed_body (t := t.setName none)
      (by rw [Tag.setName_name]) hw
    rwa [Tag.writeBody_setName] at h1
  rw [Tag.write_eq_head_body, hname,
    writeHead_some o t.disc nm (by have := Tag.disc_range t; omega) hlen, hwb]
  simp

theorem named_of_unnamed (o : ByteOrder) (t : Tag) (nm : List Nat)
    (hname : t.name = some nm) (hlen : nm.length ≤ 32767)
    (hu : ∃ pb, Tag.write o (t.setName none) = .ok pb ∧
      ∀ f r, Tag.size t ≤ f →
        Tag.read o f t.disc false (pb ++ r) = .ok (t.setName none, r)) :
    ∃ bs, Tag.write o t = .ok (t.disc :: bs) ∧
      ∀ f r, Tag.size t ≤ f →
        Tag.read o f t.disc true (bs ++ r) = .ok (t, r) := by
  obtain ⟨pb, hw, hr⟩ := hu
  refine ⟨packU o 2 nm.length ++ nm ++ pb,
    write_named o t nm hname hlen pb hw, ?_⟩
  intro f r hf
  obtain ⟨f1, rfl⟩ : ∃ f1, f = f1 + 1 := by
    have := Tag.size_pos t
    cases f
    · omega
    · exact ⟨_, rfl⟩
  have h1 := hr (f1 + 1) r hf
  have h2 := read_named o f1 t.disc nm pb r (t.setName none) hlen h1
  rw [Tag.setName_setName, Tag.setName_self hname] at h2
  simpa [List.append_assoc] using h2

theorem readListElems_zero (o : ByteOrder) (f idx : Nat) :
    readListElems o f idx 0 = pure [] := by cases f <;> rfl

theorem readListElems_succ (o : ByteOrder) (f idx n : Nat) :
    readListElems o (f + 1) idx (n + 1) =
      (Tag.read o f idx false >>= fun e =>
        readListElems o f idx n >>= fun es => pure (e :: es)) := rfl

theorem writeTags_nil (o : ByteOrder) : writeTags o [] = .ok [] := rfl

theorem writeTags_cons (o : ByteOrder) (t : Tag) (ts : List Tag) :
    writeTags o (t :: ts) =
      (Tag.write o t >>= fun b =>
        writeTags o ts >>= fun bs => pure (b ++ bs)) := rfl

theorem writeItems_nil (o : ByteOrder) : writeItems o [] = .ok [] := rfl

theorem writeItems_cons (o : ByteOrder) (k : List Nat) (t : Tag)
    (ts : List (List Nat × Tag)) :
    writeItems o ((k, t) :: ts) =
      (Tag.write o t >>= fun b =>
        writeItems o ts >>= fun bs => pure (b ++ bs)) := rfl

theorem readCompoundLoop_succ (o : ByteOrder) (f : Nat)
    (final : List (List Nat × Tag)) :
    readCompoundLoop o (f + 1) final =
      (readSigned o 1 >>= fun tag =>
        if tag = 0 then pure final
        else
          (rLift (tagsGet tag) >>= fun cls =>
            match cls with
            | none => rThrow .attrErr
            | some i =>
                (Tag.read o f i true >>= fun tmp =>
                  readCompoundLoop o f (dictInsert final (tmp.name.getD []) tmp)))) := rfl

/-- Elements of a well-formed list round-trip through `writeTags` and
`readListElems` (given that each element does). -/
theorem elems_roundtrip (o : ByteOrder) (ty : Int) :
    ∀ elems : List Tag, wfTags ty elems = true →
    (∀ e ∈ elems, ∃ pb, Tag.write o e = .ok pb ∧
      ∀ f r, Tag.size e ≤ f →
        Tag.read o f e.disc false (pb ++ r) = .ok (e, r)) →
    ∃ bs, writeTags o elems = .ok bs ∧
      ∀ f r, sizeTags elems ≤ f →
        readListElems o f ty.toNat elems.length (bs ++ r) = .ok (elems, r) := by
  intro elems
  induction elems with
  | nil =>
      intro _ _
      refine ⟨[], rfl, ?_⟩
      intro f r _
      simp [readListElems_zero]
  | cons e es ih =>
      intro hwf hmem
      simp only [wfTags, Bool.and_eq_true, decide_eq_true_eq] at hwf
      obtain ⟨⟨hdisc, hwfe⟩, hwfes⟩ := hwf
      obtain ⟨pe, hwe, hre⟩ := hmem e (by simp)
      obtain ⟨ps, hws, hrs⟩ := ih hwfes (fun x hx => hmem x (by simp [hx]))
      refine ⟨pe ++ ps, ?_, ?_⟩
      · rw [writeTags_cons, hwe, Except_ok_bind, hws, Except_ok_bind]
        rfl
      · intro f r hf
        simp only [sizeTags] at hf
        have hse := Tag.size_pos e
        obtain ⟨f1, rfl⟩ : ∃ f1, f = f1 + 1 := by
          cases f
          · omega
          · exact ⟨_, rfl⟩
        have hty : ty.toNat = e.disc := by omega
        have h1 : Tag.read o f1 e.disc false (pe ++ (ps ++ r)) =
            .ok (e, ps ++ r) := hre f1 (ps ++ r) (by omega)
        have h2 : readListElems o f1 ty.toNat es.length (ps ++ r) =
            .ok (es, r) := hrs f1 r (by omega)
        rw [hty] at h2
        rw [List.length_cons, readListElems_succ, hty]
        simp only [ReadM_bind_apply, List.append_assoc, h1, exceptStep_ok,
          h2, ReadM_pure_apply]

theorem dictInsert_fresh (acc : List (List Nat × Tag)) (k : List Nat)
    (v : Tag) (h : ∀ p ∈ acc, p.1 ≠ k) :
    dictInsert acc k v = acc ++ [(k, v)] := by
  induction acc with
  | nil => rfl
  | cons p t ih =>
      obtain ⟨k1, v1⟩ := p
      have hk : k1 ≠ k := h (k1, v1) (by simp)
      simp only [dictInsert, if_neg hk, List.cons_append, List.cons.injEq,
        true_and]
      exact ih (fun q hq => h q (by simp [hq]))

theorem tagsGet_disc (t : Tag) :
    tagsGet ((t.disc : Nat) : Int) = .ok (some t.disc) := by
  have h := tagsGet_nat t.disc (Tag.disc_range t).2
  rw [if_neg (by have := (Tag.disc_range t).1; omega)] at h
  exact h

theorem toSigned_disc (t : Tag) : toSigned 1 t.disc = (t.disc : Int) := by
  rw [toSigned_one, if_pos]
  have := (Tag.disc_range t).2
  omega

/-- Children of a well-formed compound round-trip through `writeItems`
and the compound loop (given that each named child does). -/
theorem items_roundtrip (o : ByteOrder) :
    ∀ items : List (List Nat × Tag), wfItems items = true →
    (items.map Prod.fst).Nodup →
    (∀ kt ∈ items, ∃ body, Tag.write o kt.2 = .ok (kt.2.disc :: body) ∧
      ∀ f r, Tag.size kt.2 ≤ f →
        Tag.read o f kt.2.disc true (body ++ r) = .ok (kt.2, r)) →
    ∃ bs, writeItems o items = .ok bs ∧
      ∀ f acc r, 1 + sizeItems items ≤ f →
        (∀ kt ∈ items, ∀ p ∈ acc, p.1 ≠ kt.1) →
        readCompoundLoop o f acc (bs ++ (0 :: r)) = .ok (acc ++ items, r) := by
  intro items
  induction items with
  | nil =>
      intro _ _ _
      refine ⟨[], rfl, ?_⟩
      intro f acc r hf _
      obtain ⟨f1, rfl⟩ : ∃ f1, f = f1 + 1 := by
        cases f
        · simp [sizeItems] at hf
        · exact ⟨_, rfl⟩
      rw [readCompoundLoop_succ]
      have h0 : toSigned 1 0 = 0 := by decide
      simp [ReadM_bind_apply, readSigned_cons, h0]
  | cons kt items ih =>
      intro hwf hnodup hmem
      obtain ⟨k, t⟩ := kt
      simp only [wfItems, Bool.and_eq_true, decide_eq_true_eq] at hwf
      obtain ⟨⟨hname, hwft⟩, hwfits⟩ := hwf
      simp only [List.map_cons, List.nodup_cons, List.mem_map] at hnodup
      obtain ⟨hknot, hnodup2⟩ := hnodup
      obtain ⟨body, hw0, hr0⟩ := hmem (k, t) (by simp)
      have hw : Tag.write o t = .ok (t.disc :: body) := hw0
      have hr : ∀ f r, Tag.size t ≤ f →
          Tag.read o f t.disc true (body ++ r) = .ok (t, r) := hr0
      obtain ⟨ps, hws, hrs⟩ := ih hwfits hnodup2
        (fun x hx => hmem x (by simp [hx]))
      refine ⟨(t.disc :: body) ++ ps, ?_, ?_⟩
      · rw [writeItems_cons, hw, Except_ok_bind, hws, Except_ok_bind]
        rfl
      · intro f acc r hf hdisj
        rw [show sizeItems ((k, t) :: items) = 1 + t.size + sizeItems items
          from rfl] at hf
        have hst := Tag.size_pos t
        obtain ⟨f1, rfl⟩ : ∃ f1, f = f1 + 1 := by
          cases f
          · omega
          · exact ⟨_, rfl⟩
        have hstream : ((t.disc :: body) ++ ps) ++ (0 :: r) =
            (t.disc : Nat) :: (body ++ (ps ++ (0 :: r))) := by
          simp
        have hread : Tag.read o f1 t.disc true (body ++ (ps ++ (0 :: r))) =
            .ok (t, ps ++ (0 :: r)) := hr f1 (ps ++ (0 :: r)) (by omega)
        have hfresh : dictInsert acc (t.name.getD []) t = acc ++ [(k, t)] := by
          rw [hname]
          exact dictInsert_fresh acc k t
            (fun p hp => hdisj (k, t) (by simp) p hp)
        have hdisj2 : ∀ kt ∈ items, ∀ p ∈ acc ++ [(k, t)], p.1 ≠ kt.1 := by
          intro kt2 hkt2 p hp
          rcases List.mem_append.mp hp with hp1 | hp1
          · exact hdisj kt2 (by simp [hkt2]) p hp1
          · simp only [List.mem_singleton] at hp1
            subst hp1
            intro hcontra
            exact hknot ⟨kt2, hkt2, hcontra.symm⟩
        have hloop : readCompoundLoop o f1 (acc ++ [(k, t)])
            (ps ++ (0 :: r)) = .ok ((acc ++ [(k, t)]) ++ items, r) :=
          hrs f1 (acc ++ [(k, t)]) r (by omega) hdisj2
        rw [hstream, readCompoundLoop_succ]
        have hd0 : ((t.disc : Nat) : Int) ≠ 0 := by
          have := (Tag.disc_range t).1
          omega
        simp only [ReadM_bind_apply, readSigned_cons, toSigned_disc,
          exceptStep_ok, if_neg hd0, tagsGet_disc, rLift_ok, hread, hfresh,
          hloop]
        simp

theorem wfTags_mem {ty : Int} {es : List Tag} (h : wfTags ty es = true)
    {e : Tag} (he : e ∈ es) :
    ((e.disc : Nat) : Int) = ty ∧ Tag.wf false e = true := by
  induction es with
  | nil => simp at he
  | cons x xs ih =>
      simp only [wfTags, Bool.and_eq_true, decide_eq_true_eq] at h
      rcases List.mem_cons.mp he with rfl | hxs
      · exact ⟨h.1.1, h.1.2⟩
      · exact ih h.2 hxs

theorem sizeTags_mem {es : List Tag} {e : Tag} (he : e ∈ es) :
    Tag.size e ≤ sizeTags es := by
  induction es with
  | nil => simp at he
  | cons x xs ih =>
      rcases List.mem_cons.mp he with rfl | hxs
      · rw [show sizeTags (e :: xs) = 1 + e.size + sizeTags xs from rfl]
        omega
      · rw [show sizeTags (x :: xs) = 1 + x.size + sizeTags xs from rfl]
        have := ih hxs
        omega

theorem wfItems_mem {items : List (List Nat × Tag)}
    (h : wfItems items = true) {kt : List Nat × Tag} (hkt : kt ∈ items) :
    kt.2.name = some kt.1 ∧ Tag.wf true kt.2 = true := by
  induction items with
  | nil => simp at hkt
  | cons x xs ih =>
      obtain ⟨k1, t1⟩ := x
      simp only [wfItems, Bool.and_eq_true, decide_eq_true_eq] at h
      rcases List.mem_cons.mp hkt with rfl | hxs
      · exact ⟨h.1.1, h.1.2⟩
      · exact ih h.2 hxs

theorem sizeItems_mem {items : List (List Nat × Tag)} {kt : List Nat × Tag}
    (hkt : kt ∈ items) : Tag.size kt.2 ≤ sizeItems items := by
  induction items with
  | nil => simp at hkt
  | cons x xs ih =>
      obtain ⟨k1, t1⟩ := x
      rw [show sizeItems ((k1, t1) :: xs) = 1 + t1.size + sizeItems xs
        from rfl]
      rcases List.mem_cons.mp hkt with rfl | hxs
      · simp
        omega
      · have := ih hxs
        omega

theorem nameWf_some {n : List Nat} (h : nameWf true (some n) = true) :
    n.length ≤ 32767 := by
  simp only [nameWf, Bool.and_eq_true, decide_eq_true_eq] at h
  exact h.1

theorem Tag.wf_nameWf {hn : Bool} {t : Tag} (h : Tag.wf hn t = true) :
    nameWf hn t.name = true := by
  cases t <;>
    simp only [Tag.wf, Tag.name, Bool.and_eq_true] at h ⊢ <;> tauto

theorem rt_unnamed : ∀ n : Nat, ∀ t : Tag, Tag.size t ≤ n → t.name = none →
    ∀ o : ByteOrder, Tag.wf false t = true →
    ∃ pb, Tag.write o t = .ok pb ∧
      ∀ f r, Tag.size t ≤ f →
        Tag.read o f t.disc false (pb ++ r) = .ok (t, r) := by
  intro n
  induction n with
  | zero =>
      intro t hsz
      have := Tag.size_pos t
      omega
  | succ n ih =>
      intro t hsz hname o hwf
      cases t with
      | byte nm v =>
          simp only [Tag.name] at hname
          subst hname
          simp only [Tag.wf, nameWf, Bool.true_and, Bool.and_eq_true,
            decide_eq_true_eq] at hwf
          have hps : packSigned o 1 v =
              .ok (packU o 1 (v % (2 ^ (8 * 1))).toNat) := by
            apply packSigned_ok <;> norm_num <;> omega
          refine ⟨packU o 1 (v % (2 ^ (8 * 1))).toNat, ?_, ?_⟩
          · rw [Tag.write_eq_head_body]
            simp [Tag.writeBody, Tag.disc, Tag.name, writeHead, hps]
          · intro f r hf
            simp only [Tag.size] at hf
            obtain ⟨f1, rfl⟩ : ∃ f1, f = f1 + 1 := by
              cases f
              · omega
              · exact ⟨_, rfl⟩
            have hrd : readSigned o 1
                (packU o 1 (v % (2 ^ (8 * 1))).toNat ++ r) = .ok (v, r) := by
              apply readSigned_packSigned o 1 v r (by omega) <;>
                norm_num <;> omega
            norm_num at hrd
            rw [Tag.read]
            simp [ReadM_bind_apply, hrd, Tag.setName, Tag.disc]
      | short nm v =>
          simp only [Tag.name] at hname
          subst hname
          simp only [Tag.wf, nameWf, Bool.true_and, Bool.and_eq_true,
            decide_eq_true_eq] at hwf
          norm_num at hwf
          have hps : packSigned o 2 v =
              .ok (packU o 2 (v % (2 ^ (8 * 2))).toNat) := by
            apply packSigned_ok <;> norm_num <;> omega
          refine ⟨packU o 2 (v % (2 ^ (8 * 2))).toNat, ?_, ?_⟩
          · rw [Tag.write_eq_head_body]
            simp [Tag.writeBody, Tag.disc, Tag.name, writeHead, hps]
          · intro f r hf
            simp only [Tag.size] at hf
            obtain ⟨f1, rfl⟩ : ∃ f1, f = f1 + 1 := by
              cases f
              · omega
              · exact ⟨_, rfl⟩
            have hrd : readSigned o 2
                (packU o 2 (v % (2 ^ (8 * 2))).toNat ++ r) = .ok (v, r) := by
              apply readSigned_packSigned o 2 v r (by omega) <;>
                norm_num <;> omega
            norm_num at hrd
            rw [Tag.read]
            simp [ReadM_bind_apply, hrd, Tag.setName, Tag.disc]
      | int nm v =>
          simp only [Tag.name] at hname
          subst hname
          simp only [Tag.wf, nameWf, Bool.true_and, Bool.and_eq_true,
            decide_eq_true_eq] at hwf
          norm_num at hwf
          have hps : packSigned o 4 v =
              .ok (packU o 4 (v % (2 ^ (8 * 4))).toNat) := by
            apply packSigned_ok <;> norm_num <;> omega
          refine ⟨packU o 4 (v % (2 ^ (8 * 4))).toNat, ?_, ?_⟩
          · rw [Tag.write_eq_head_body]
            simp [Tag.writeBody, Tag.disc, Tag.name, writeHead, hps]
          · intro f r hf
            simp only [Tag.size] at hf
            obtain ⟨f1, rfl⟩ : ∃ f1, f = f1 + 1 := by
              cases f
              · omega
              · exact ⟨_, rfl⟩
            have hrd : readSigned o 4
                (packU o 4 (v % (2 ^ (8 * 4))).toNat ++ r) = .ok (v, r) := by
              apply readSigned_packSigned o 4 v r (by omega) <;>
                norm_num <;> omega
            norm_num at hrd
            rw [Tag.read]
            simp [ReadM_bind_apply, hrd, Tag.setName, Tag.disc]
      | long nm v =>
          simp only [Tag.name] at hname
          subst hname
          simp only [Tag.wf, nameWf, Bool.true_and, Bool.and_eq_true,
            decide_eq_true_eq] at hwf
          norm_num at hwf
          have hps : packSigned o 8 v =
              .ok (packU o 8 (v % (2 ^ (8 * 8))).toNat) := by
            apply packSigned_ok <;> norm_num <;> omega
          refine ⟨packU o 8 (v % (2 ^ (8 * 8))).toNat, ?_, ?_⟩
          · rw [Tag.write_eq_head_body]
            simp [Tag.writeBody, Tag.disc, Tag.name, writeHead, hps]
          · intro f r hf
            simp only [Tag.size] at hf
            obtain ⟨f1, rfl⟩ : ∃ f1, f = f1 + 1 := by
              cases f
              · omega
              · exact ⟨_, rfl⟩
            have hrd : readSigned o 8
                (packU o 8 (v % (2 ^ (8 * 8))).toNat ++ r) = .ok (v, r) := by
              apply readSigned_packSigned o 8 v r (by omega) <;>
                norm_num <;> omega
            norm_num at hrd
            rw [Tag.read]
            simp [ReadM_bind_apply, hrd, Tag.setName, Tag.disc]
      | float nm bits =>
          simp only [Tag.name] at hname
          subst hname
          simp only [Tag.wf, nameWf, Bool.true_and, Bool.and_eq_true,
            decide_eq_true_eq] at hwf
          norm_num at hwf
          refine ⟨packU o 4 bits, ?_, ?_⟩
          · rw [Tag.write_eq_head_body]
            simp [Tag.writeBody, Tag.disc, Tag.name, writeHead]
            rfl
          · intro f r hf
            simp only [Tag.size] at hf
            obtain ⟨f1, rfl⟩ : ∃ f1, f = f1 + 1 := by
              cases f
              · omega
              · exact ⟨_, rfl⟩
            have hrd : readU o 4 (packU o 4 bits ++ r) = .ok (bits, r) := by
              apply readU_packU
              norm_num
              omega
            rw [Tag.read]
            simp [ReadM_bind_apply, hrd, Tag.setName, Tag.disc]
      | double nm bits =>
          simp only [Tag.name] at hname
          subst hname
          simp only [Tag.wf, nameWf, Bool.true_and, Bool.and_eq_true,
            decide_eq_true_eq] at hwf
          norm_num at hwf
          refine ⟨packU o 8 bits, ?_, ?_⟩
          · rw [Tag.write_eq_head_body]
            simp [Tag.writeBody, Tag.disc, Tag.name, writeHead]
            rfl
          · intro f r hf
            simp only [Tag.size] at hf
            obtain ⟨f1, rfl⟩ : ∃ f1, f = f1 + 1 := by
              cases f
              · omega
              · exact ⟨_, rfl⟩
            have hrd : readU o 8 (packU o 8 bits ++ r) = .ok (bits, r) := by
              apply readU_packU
              norm_num
              omega
            rw [Tag.read]
            simp [ReadM_bind_apply, hrd, Tag.setName, Tag.disc]
      | byteArray nm v =>
          simp only [Tag.name] at hname
          subst hname
          simp only [Tag.wf, nameWf, Bool.true_and, Bool.and_eq_true,
            decide_eq_true_eq] at hwf
          norm_num at hwf
          obtain ⟨hlen, -⟩ := hwf
          have hps : packSigned o 4 ((v.length : Nat) : Int) =
              .ok (packU o 4 v.length) := by
            apply packSigned_nonneg o 4 v.length (by omega)
            norm_num
            omega
          refine ⟨packU o 4 v.length ++ v, ?_, ?_⟩
          · rw [Tag.write_eq_head_body]
            simp [Tag.writeBody, Tag.disc, Tag.name, writeHead, hps]
          · intro f r hf
            simp only [Tag.size] at hf
            obtain ⟨f1, rfl⟩ : ∃ f1, f = f1 + 1 := by
              cases f
              · omega
              · exact ⟨_, rfl⟩
            have hrd : readSigned o 4 (packU o 4 v.length ++ (v ++ r)) =
                .ok ((v.length : Int), v ++ r) := by
              apply readSigned_small o 4 v.length (v ++ r) (by omega)
              norm_num
              omega
            have hrb := readBytes_exact v r
            have hnn : ¬ ((v.length : Int) < 0) := by omega
            rw [Tag.read]
            simp [ReadM_bind_apply, hrd, hrb, hnn, Tag.setName, Tag.disc]
      | string nm v =>
          simp only [Tag.name] at hname
          subst hname
          simp only [Tag.wf, nameWf, Bool.true_and, Bool.and_eq_true,
            decide_eq_true_eq] at hwf
          obtain ⟨hlen, -⟩ := hwf
          refine ⟨packU o 2 v.length ++ v, ?_, ?_⟩
          · rw [Tag.write_eq_head_body]
            simp [Tag.writeBody, Tag.disc, Tag.name, writeHead,
              write_utf8_wf o v hlen]
          · intro f r hf
            simp only [Tag.size] at hf
            obtain ⟨f1, rfl⟩ : ∃ f1, f = f1 + 1 := by
              cases f
              · omega
              · exact ⟨_, rfl⟩
            have hrd := read_utf8_wf o v r hlen
            rw [Tag.read]
            simp [ReadM_bind_apply, hrd, Tag.setName, Tag.disc]
      | list nm ty elems =>
          simp only [Tag.name] at hname
          subst hname
          simp only [Tag.wf, nameWf, Bool.true_and, Bool.and_eq_true,
            decide_eq_true_eq] at hwf
          obtain ⟨⟨hty, hlen⟩, hwfel⟩ := hwf
          simp only [Tag.size] at hsz
          have hmem : ∀ e ∈ elems, ∃ pb, Tag.write o e = .ok pb ∧
              ∀ f r, Tag.size e ≤ f →
                Tag.read o f e.disc false (pb ++ r) = .ok (e, r) := by
            intro e he
            have hwfe := (wfTags_mem hwfel he).2
            have hnm : e.name = none := nameWf_false (Tag.wf_nameWf hwfe)
            have hsize : Tag.size e ≤ n := by
              have := sizeTags_mem he
              omega
            exact ih e hsize hnm o hwfe
          obtain ⟨ebs, hwts, hrts⟩ := elems_roundtrip o ty elems hwfel hmem
          have htyc : ((ty.toNat : Nat) : Int) = ty :=
            Int.toNat_of_nonneg hty.1
          have hpty : packSigned o 1 ty = .ok (packU o 1 ty.toNat) := by
            rw [← htyc]
            apply packSigned_nonneg o 1 ty.toNat (by omega)
            norm_num
            omega
          have hplen : packSigned o 4 ((elems.length : Nat) : Int) =
              .ok (packU o 4 elems.length) := by
            apply packSigned_nonneg o 4 elems.length (by omega)
            norm_num at hlen ⊢
            omega
          refine ⟨packU o 1 ty.toNat ++ (packU o 4 elems.length ++ ebs),
            ?_, ?_⟩
          · rw [Tag.write_eq_head_body]
            simp [Tag.writeBody, Tag.disc, Tag.name, writeHead, hpty,
              hplen, hwts]
          · intro f r hf
            simp only [Tag.size] at hf
            obtain ⟨f1, rfl⟩ : ∃ f1, f = f1 + 1 := by
              cases f
              · omega
              · exact ⟨_, rfl⟩
            have hr1 : readSigned o 1 (packU o 1 ty.toNat ++
                (packU o 4 elems.length ++ (ebs ++ r))) =
                .ok (ty, packU o 4 elems.length ++ (ebs ++ r)) := by
              have h := readSigned_small o 1 ty.toNat
                (packU o 4 elems.length ++ (ebs ++ r)) (by omega)
                (by norm_num; omega)
              rwa [htyc] at h
            have hr4 : readSigned o 4 (packU o 4 elems.length ++ (ebs ++ r)) =
                .ok ((elems.length : Int), ebs ++ r) := by
              apply readSigned_small o 4 elems.length (ebs ++ r) (by omega)
              norm_num at hlen ⊢
              omega
            have htags : tagsGet ty =
                .ok (if ty.toNat = 0 then none else some ty.toNat) := by
              rw [← htyc]
              exact tagsGet_nat ty.toNat (by omega)
            by_cases h0 : ty.toNat = 0
            · have helems : elems = [] := by
                cases elems with
                | nil => rfl
                | cons e es =>
                    exfalso
                    have h1 := (wfTags_mem hwfel (e := e) (by simp)).1
                    have h2 := (Tag.disc_range e).1
                    omega
              subst helems
              have hebs : ebs = [] := by
                rw [writeTags_nil] at hwts
                simpa using hwts.symm
              subst hebs
              simp only [h0, List.length_nil, List.nil_append]
                at hr1 hr4 htags
              rw [Tag.read]
              simp [ReadM_bind_apply, hr1, hr4, htags, h0, Tag.setName,
                Tag.disc]
            · rw [Tag.read]
              have hrts2 : readListElems o f1 ty.toNat elems.length
                  (ebs ++ r) = .ok (elems, r) := hrts f1 r (by omega)
              simp [ReadM_bind_apply, hr1, hr4, htags, h0, hrts2,
                Tag.setName, Tag.disc]
      | compound nm items =>
          simp only [Tag.name] at hname
          subst hname
          simp only [Tag.wf, nameWf, Bool.true_and, Bool.and_eq_true,
            decide_eq_true_eq] at hwf
          obtain ⟨hwfits, hnodup⟩ := hwf
          simp only [Tag.size] at hsz
          have hmem : ∀ kt ∈ items, ∃ body,
              Tag.write o kt.2 = .ok (kt.2.disc :: body) ∧
              ∀ f r, Tag.size kt.2 ≤ f →
                Tag.read o f kt.2.disc true (body ++ r) = .ok (kt.2, r) := by
            intro kt hkt
            obtain ⟨hknm, hkwf⟩ := wfItems_mem hwfits hkt
            have hsize : Tag.size (kt.2.setName none) ≤ n := by
              rw [Tag.setName_size]
              have := sizeItems_mem hkt
              omega
            have hu := ih (kt.2.setName none) hsize
              (by rw [Tag.setName_name]) o (Tag.wf_setName_none hkwf)
            rw [Tag.setName_size, Tag.setName_disc] at hu
            exact named_of_unnamed o kt.2 kt.1 hknm
              (by
                have := Tag.wf_nameWf hkwf
                rw [hknm] at this
                exact nameWf_some this) hu
          obtain ⟨bs, hwis, hrl⟩ := items_roundtrip o items hwfits hnodup hmem
          refine ⟨bs ++ [0], ?_, ?_⟩
          · rw [Tag.write_eq_head_body]
            simp [Tag.writeBody, Tag.disc, Tag.name, writeHead, hwis]
          · intro f r hf
            simp only [Tag.size] at hf
            obtain ⟨f1, rfl⟩ : ∃ f1, f = f1 + 1 := by
              cases f
              · omega
              · exact ⟨_, rfl⟩
            have hloop : readCompoundLoop o f1 [] (bs ++ (0 :: r)) =
                .ok ([] ++ items, r) :=
              hrl f1 [] r (by omega) (by simp)
            simp only [List.nil_append] at hloop
            have hstream : (bs ++ [0]) ++ r = bs ++ (0 :: r) := by
              simp
            rw [Tag.read]
            simp [ReadM_bind_apply, hstream, hloop, Tag.setName, Tag.disc]
      | intArray nm v =>
          simp [Tag.wf] at hwf

theorem nameWf_true {x : Option (List Nat)} (h : nameWf true x = true) :
    ∃ nm, x = some nm ∧ nm.length ≤ 32767 := by
  cases x with
  | none => simp [nameWf] at h
  | some nm => exact ⟨nm, rfl, nameWf_some h⟩

/-- Claim C1 counterexample: the round-trip fails as stated on a
constructible tree.  A TAG_List declared of Byte type holding a NAMED
TAG_Byte element encodes fine (the element writes its header), but
decoding reads list elements with has_name=False, so the decoded tree has
an unnamed element (and trailing bytes remain): decode(encode(T)) is not
T. -/
theorem C1_roundtrip_counterexample :
    Tag.write .be (.list (some [108]) 1 [.byte (some [120]) 1]) =
      .ok [9, 0, 1, 108, 1, 0, 0, 0, 1, 1, 0, 1, 120, 1] ∧
    decodeTag .be 20 [9, 0, 1, 108, 1, 0, 0, 0, 1, 1, 0, 1, 120, 1] =
      .ok (.list (some [108]) 1 [.byte none 1], [0, 1, 120, 1]) ∧
    Tag.list (some [108]) 1 [.byte none 1] ≠
      Tag.list (some [108]) 1 [.byte (some [120]) 1] := by
  refine ⟨rfl, rfl, by simp⟩

/-- Claim C1, amended: decoding inverts encoding on every well-formed
tree (`Tag.wf true`): values within their fixed widths, names present
exactly where headers are written and matching the (distinct) compound
keys, name/string lengths at most 32767, array/list lengths below `2^31`,
list elements unnamed and matching the declared element type, and no
TAG_Int_Array.  This holds for both byte orders and leaves the remainder
of the stream untouched. -/
theorem C1_roundtrip_wellformed (o : ByteOrder) (t : Tag)
    (h : Tag.wf true t = true) :
    ∃ bs, Tag.write o t = .ok bs ∧
      ∀ f r, Tag.size t + 1 ≤ f → decodeTag o f (bs ++ r) = .ok (t, r) := by
  obtain ⟨nm, hname, hlen⟩ := nameWf_true (Tag.wf_nameWf h)
  have hu := rt_unnamed (Tag.size (t.setName none)) (t.setName none)
    le_rfl (by rw [Tag.setName_name]) o (Tag.wf_setName_none h)
  rw [Tag.setName_size, Tag.setName_disc] at hu
  obtain ⟨bs, hwr, hrd⟩ := named_of_unnamed o t nm hname hlen hu
  refine ⟨t.disc :: bs, hwr, ?_⟩
  intro f r hf
  obtain ⟨f1, rfl⟩ : ∃ f1, f = f1 + 1 := by
    cases f
    · omega
    · exact ⟨_, rfl⟩
  have hsz := Tag.size_pos t
  have hrd1 : Tag.read o f1 t.disc true (bs ++ r) = .ok (t, r) :=
    hrd f1 r (by omega)
  have hd0 : ((t.disc : Nat) : Int) ≠ 0 := by
    have := (Tag.disc_range t).1
    omega
  rw [show (t.disc :: bs) ++ r = (t.disc : Nat) :: (bs ++ r) from rfl]
  unfold decodeTag
  simp [ReadM_bind_apply, readSigned_cons, toSigned_disc, tagsGet_disc,
    rLift_ok, hd0, hrd1]

/-- Witness for the amended C1 at a concrete named TAG_Byte. -/
theorem C1_roundtrip_wellformed_witness :
    Tag.wf true (.byte (some [97]) 5) = true ∧
    (∃ bs, Tag.write .be (.byte (some [97]) 5) = .ok bs ∧
      ∀ f r, Tag.size (.byte (some [97]) 5) + 1 ≤ f →
        decodeTag .be f (bs ++ r) = .ok (.byte (some [97]) 5, r)) :=
  ⟨by decide, C1_roundtrip_wellformed .be (.byte (some [97]) 5) (by decide)⟩
